import Mathlib

/-!
Shallow embedding of the price-list reconciliation program (src/app.py).

The program parses free-text price lines extracted from a PDF, normalizes
the product descriptions, matches them against an Excel catalog via the
pandas function str.contains (a case-insensitive regular-expression
search), and computes two rounded sale prices per matched row.

Modelling conventions:
- Python strings are Lean String / List Char; the character classes of
  the regular expressions are restricted to their ASCII meaning.
- Python float is modelled by the exact rationals; the built-in round
  with two decimals is modelled as round-half-to-even over the rationals.
- Fallible operations (missing DataFrame column, invalid dynamic pattern,
  failing numeric conversion) are modelled with Option: a none result
  stands for the uncaught Python exception aborting the run before any
  output is assembled, faithful to update_prices, which builds its three
  output tables only after the whole loop has finished.
- The pdfplumber text extraction, the Excel (de)serialisation, the
  timestamp, and the Streamlit user interface are out-of-scope input and
  output glue; the core is modelled from the extracted text lines onward.
-/

/-- ASCII digit test, modelling the regex class backslash-d restricted to ASCII. -/
def isDigitChar (c : Char) : Bool := '0' ≤ c && c ≤ '9'

/-- ASCII whitespace test, modelling the regex class backslash-s restricted to ASCII. -/
def isSpaceChar (c : Char) : Bool :=
  c = ' ' || c = '\t' || c = '\n' || c = '\r' || c = '\x0b' || c = '\x0c'

/-- Removes trailing whitespace, the second half of the Python strip method. -/
def dropTrailSpace (l : List Char) : List Char :=
  (l.reverse.dropWhile isSpaceChar).reverse

/-- Python strip with no arguments: removes leading and trailing whitespace. -/
def pyStrip (l : List Char) : List Char :=
  dropTrailSpace (l.dropWhile isSpaceChar)

/-- Models re.sub applied to the anchored pattern digits-then-optional-spaces:
since the pattern is anchored at the string start it fires at most once,
removing the maximal leading digit run (if any) and the following maximal
whitespace run. If the string does not start with a digit it is unchanged. -/
def stripLeadingCode (l : List Char) : List Char :=
  let ds := l.takeWhile isDigitChar
  if ds.isEmpty then l else (l.drop ds.length).dropWhile isSpaceChar

/-- clean_description from src/app.py: re.sub of the leading digit code,
then strip. -/
def clean_description (s : String) : String :=
  String.mk (pyStrip (stripLeadingCode s.data))

/-- Matches the anchored tail of the price-line pattern: one-or-more spaces,
a dollar sign, optional spaces, then digits-or-commas, a dot, and digits,
returning the captured numeric token. Each greedy quantifier is taken
maximally with no backtracking because every shorter choice hands the next
position a character of its own class, which the following literal or class
in the pattern then rejects: a space is not a dollar sign, a space is not a
digit or comma, and a digit or comma is not a dot. The final digit run has
nothing after it in the pattern, so greedy-maximal is exact there too. -/
def matchTail (l : List Char) : Option (List Char) :=
  let sp := l.takeWhile isSpaceChar
  if sp.isEmpty then none else
  let l2 := l.drop sp.length
  if l2.head? = some '$' then
    let rest2 := (l2.drop 1).dropWhile isSpaceChar
    let num := rest2.takeWhile (fun c => isDigitChar c || c = ',')
    if num.isEmpty then none else
    let l3 := rest2.drop num.length
    if l3.head? = some '.' then
      let frac := (l3.drop 1).takeWhile isDigitChar
      if frac.isEmpty then none else some (num ++ '.' :: frac)
    else none
  else none

/-- The lazy description group of the price-line pattern: it consumes one
character at a time (any character except a newline) and after each step
first tries the anchored tail, so the shortest successful description wins,
exactly the behaviour of a lazy one-or-more dot. Returns the captured
description and numeric token. -/
def matchDescAux (acc : List Char) : List Char → Option (List Char × List Char)
  | [] => none
  | c :: rest =>
    if c = '\n' then none
    else
      match matchTail rest with
      | some tok => some (acc ++ [c], tok)
      | none => matchDescAux (acc ++ [c]) rest

/-- Matches the description-and-tail part of the price-line pattern at the
current position. -/
def matchDesc (l : List Char) : Option (List Char × List Char) :=
  matchDescAux [] l

/-- Backtracking over the whitespace run of the optional leading-code group:
greedy, so the maximal run is tried first, then ever shorter runs (never
empty), the surrendered spaces rejoining the input of the lazy description. -/
def trySpaces : Nat → List Char → Option (List Char × List Char)
  | 0, _ => none
  | j + 1, l1 => matchDesc (l1.drop (j + 1)) <|> trySpaces j l1

/-- The optional leading group of the price-line pattern with the group
present: a maximal digit run (a shorter digit run is never useful, since the
character it surrenders is a digit, which the mandatory whitespace then
rejects) followed by one-or-more spaces with backtracking. -/
def tryPresent (l : List Char) : Option (List Char × List Char) :=
  let ds := l.takeWhile isDigitChar
  if ds.isEmpty then none else
  let l1 := l.drop ds.length
  let sp := l1.takeWhile isSpaceChar
  if sp.isEmpty then none else trySpaces sp.length l1

/-- One attempt of the whole price-line pattern at a fixed start position:
the greedy optional leading-code group is tried present first, absent
second. -/
def matchFrom (l : List Char) : Option (List Char × List Char) :=
  tryPresent l <|> matchDesc l

/-- re.search semantics for the price-line pattern: start positions are
tried left to right and the first position admitting a match wins. -/
def searchLine : List Char → Option (List Char × List Char)
  | [] => none
  | c :: rest => matchFrom (c :: rest) <|> searchLine rest

/-- Digit run to natural number. -/
def digitsToNat (l : List Char) : Nat :=
  l.foldl (fun n c => 10 * n + (c.toNat - Char.toNat '0')) 0

/-- Digit run to rational value. -/
def digitsVal (l : List Char) : ℚ := (digitsToNat l : ℚ)

/-- Model of the Python float constructor on an unsigned decimal literal:
an integer part, an optional dot with a fractional part, at least one digit
overall, and nothing else. Exponents, infinities, nan and underscores
cannot occur in the tokens this program produces and are not modelled. -/
def pyFloatUnsigned (l : List Char) : Option ℚ :=
  let ip := l.takeWhile isDigitChar
  let l2 := l.drop ip.length
  if l2 = [] then
    if ip = [] then none else some (digitsVal ip)
  else if l2.head? = some '.' then
    let l3 := l2.drop 1
    let fp := l3.takeWhile isDigitChar
    if l3.drop fp.length ≠ [] then none
    else if ip = [] && fp = [] then none
    else some (digitsVal ip + digitsVal fp / (10 : ℚ) ^ fp.length)
  else none

/-- Model of the Python float constructor on decimal literals with an
optional sign. -/
def pyFloat (l : List Char) : Option ℚ :=
  if l.head? = some '-' then (pyFloatUnsigned (l.drop 1)).map Neg.neg
  else if l.head? = some '+' then pyFloatUnsigned (l.drop 1)
  else pyFloatUnsigned l

/-- The comma removal applied to the captured cost token before conversion. -/
def stripCommas (l : List Char) : List Char := l.filter (fun c => c ≠ ',')

/-- Numeric conversion of a captured cost token: commas removed, then float. -/
def convertCost (t : List Char) : Option ℚ := pyFloat (stripCommas t)

/-- Processing of one extracted text line, modelling the loop body of
extract_data_from_pdf: no pattern match yields no record (some none), a
match yields the cleaned description paired with the converted cost. An
outer none models the uncaught conversion exception. -/
def lineRecord (line : String) : Option (Option (String × ℚ)) :=
  match searchLine line.data with
  | none => some none
  | some (d, t) =>
    (convertCost t).map (fun q => some (clean_description (String.mk d), q))

/-- extract_data_from_pdf from src/app.py, modelled from the extracted text
lines onward (the pdfplumber page iteration and text split are input glue
delivering exactly such a line list). Returns the parsed records in line
order, or none if some conversion raised. -/
def extract_data_from_pdf : List String → Option (List (String × ℚ))
  | [] => some []
  | line :: rest =>
    match lineRecord line with
    | none => none
    | some r =>
      match extract_data_from_pdf rest with
      | none => none
      | some rs => some (r.elim rs (· :: rs))

/-- Atoms of the modelled regular-expression subset. -/
inductive RAtom where
  | lit (c : Char)
  | dot
deriving DecidableEq, Repr

/-- The characters that are special in Python regular expressions. -/
def metachars : List Char :=
  ['.', '^', '$', '*', '+', '?', '{', '}', '[', ']', '\\', '|', '(', ')']

/-- Parser for the modelled subset of Python regular expressions, as compiled
from a dynamic description string by the pandas str.contains call: plain
characters and the dot, plus backslash escapes of the special characters.
Patterns using other constructs are treated as unsupported and map to none,
the modelled abort. The Bool flag records a pending backslash. -/
def parseRegexAux : Bool → List Char → Option (List RAtom)
  | false, [] => some []
  | false, c :: rest =>
    if c = '\\' then parseRegexAux true rest
    else if c = '.' then (parseRegexAux false rest).map (RAtom.dot :: ·)
    else if c ∈ metachars then none
    else (parseRegexAux false rest).map (RAtom.lit c :: ·)
  | true, [] => none
  | true, e :: rest =>
    if e ∈ metachars then (parseRegexAux false rest).map (RAtom.lit e :: ·)
    else none

/-- Entry point of the pattern parser. -/
def parseRegex (l : List Char) : Option (List RAtom) :=
  parseRegexAux false l

/-- Whether one atom matches one character; literal comparison folds case on
both sides, modelling the IGNORECASE flag that case equal to False sets. -/
def atomMatches : RAtom → Char → Bool
  | RAtom.lit c, x => c.toLower == x.toLower
  | RAtom.dot, x => x ≠ '\n'

/-- Anchored match of an atom list against a prefix of the text. -/
def reMatchHere : List RAtom → List Char → Bool
  | [], _ => true
  | _ :: _, [] => false
  | a :: re, c :: cs => atomMatches a c && reMatchHere re cs

/-- re.search over the modelled subset: some start position admits a match. -/
def reSearch (re : List RAtom) : List Char → Bool
  | [] => reMatchHere re []
  | c :: cs => reMatchHere re (c :: cs) || reSearch re cs

/-- Literal substring containment on character lists. -/
def containsSub (w : List Char) : List Char → Bool
  | [] => w.isEmpty
  | c :: cs => w.isPrefixOf (c :: cs) || containsSub w cs

/-- Case folding of a character list. -/
def lowerL (l : List Char) : List Char := l.map Char.toLower

/-- A catalog row models one row of the Excel DataFrame: an association from
column header to cell, where a none cell is a missing value (NaN). -/
abbrev CatRow := List (String × Option String)

/-- The catalog DataFrame: header list plus rows keyed by those headers. -/
structure Catalog where
  cols : List String
  rows : List CatRow
deriving DecidableEq, Repr

/-- Column header stripping performed by update_prices on the loaded Excel
file before anything else. -/
def stripCols (cat : Catalog) : Catalog :=
  { cols := cat.cols.map (fun s => String.mk (pyStrip s.data)),
    rows := cat.rows.map (List.map (fun kv => (String.mk (pyStrip kv.1.data), kv.2))) }

/-- Whether a compiled pattern accepts the PRODUCTO cell of a row: a missing
cell never matches (the na equal to False argument of str.contains). -/
def rowMatchesRe (re : List RAtom) (r : CatRow) : Bool :=
  match (r.lookup "PRODUCTO").join with
  | some p => reSearch re p.data
  | none => false

/-- The catalog matcher of update_prices: the boolean-mask filter built from
str.contains with case equal to False and na equal to False and the default
regex equal to True, so the description is compiled as a regular expression,
not escaped. A none result models the exception raised on an unsupported or
invalid pattern. -/
def catalogMatch (d : String) (rows : List CatRow) : Option (List CatRow) :=
  (parseRegex d.data).map (fun re => rows.filter (rowMatchesRe re))

/-- The matched row set of a record description against the stripped catalog,
defaulting to the empty list on a pattern error; used to state run-level
properties. -/
def matchedRows (cat : Catalog) (d : String) : List CatRow :=
  (catalogMatch d cat.rows).getD []

/-- Modelled from the spec: the matcher the specification describes returns
the rows whose designated description column, case-folded, contains the
case-folded description as a literal (regex-special-characters-escaped)
substring. Stated from the words of the specification for comparison with
catalogMatch, the matcher of the code. -/
def specLiteralContains (d : String) (r : CatRow) : Bool :=
  match (r.lookup "PRODUCTO").join with
  | some p => containsSub (lowerL d.data) (lowerL p.data)
  | none => false

/-- Modelled from the spec: the full literal-substring catalog matcher. -/
def specCatalogMatcher (d : String) (rows : List CatRow) : List CatRow :=
  rows.filter (specLiteralContains d)

/-- A description is free of regex metacharacters. -/
def metacharFree (d : String) : Prop := ∀ c ∈ d.data, c ∉ metachars

instance (d : String) : Decidable (metacharFree d) := by
  unfold metacharFree
  infer_instance

/-- Computable floor of a rational. -/
def ratFloor (q : ℚ) : ℤ := q.num / q.den

/-- Round-half-to-even to an integer, the rounding of the Python built-in
round (idealising the binary floating point of the source as exact
rationals). -/
def rhe (q : ℚ) : ℤ :=
  if q - ratFloor q < 1/2 then ratFloor q
  else if 1/2 < q - ratFloor q then ratFloor q + 1
  else if ratFloor q % 2 = 0 then ratFloor q else ratFloor q + 1

/-- round(x, 2) from the source: round-half-to-even at two decimals. -/
def round2 (q : ℚ) : ℚ := (rhe (q * 100) : ℚ) / 100

/-- The price computation of update_prices: cost times one plus the margin
percentage over one hundred, rounded to two decimals. Both the minorista
and the mayorista price are this function applied to their own margin. -/
def priceCalc (costo m : ℚ) : ℚ := round2 (costo * (1 + m / 100))

/-- One row of the updated-costs output table. The source keeps every
original catalog column, filling the unused ones with the empty string; only
the three populated fields are modelled. -/
structure CostRow where
  codigo : Option String
  producto : Option String
  costo : ℚ
deriving DecidableEq, Repr

/-- One row of the prices output table. -/
structure PriceRow where
  codigo : Option String
  minorista : ℚ
  mayorista : ℚ
deriving DecidableEq, Repr

/-- The updated-costs row built from one matching catalog row. -/
def costRowOf (r : CatRow) (costo : ℚ) : CostRow :=
  { codigo := (r.lookup "CODIGO").join,
    producto := (r.lookup "PRODUCTO").join,
    costo := costo }

/-- The prices row built from one matching catalog row. -/
def priceRowOf (r : CatRow) (costo um uw : ℚ) : PriceRow :=
  { codigo := (r.lookup "CODIGO").join,
    minorista := priceCalc costo um,
    mayorista := priceCalc costo uw }

/-- The body of the per-record loop of update_prices. Indexing the DataFrame
with the PRODUCTO column raises when that header is absent, so the guard
precedes the pattern compilation; the CODIGO header is only consulted when
the match set is nonempty, because only then does the loop index a row with
it. The lists returned are the contributions of this record to the three
output tables. -/
def processRecord (cat : Catalog) (um uw : ℚ) (rec : String × ℚ) :
    Option (List CostRow × List PriceRow × List (String × ℚ)) :=
  if "PRODUCTO" ∈ cat.cols then
    match catalogMatch rec.1 cat.rows with
    | none => none
    | some matched =>
      if matched.isEmpty then some ([], [], [rec])
      else if "CODIGO" ∈ cat.cols then
        some (matched.map (fun r => costRowOf r rec.2),
              matched.map (fun r => priceRowOf r rec.2 um uw), [])
      else none
  else none

/-- The full record loop of update_prices, concatenating the per-record
contributions in record order; a raised exception anywhere loses every
accumulated row, since the source materialises its output tables only after
the loop. -/
def processAll (cat : Catalog) (um uw : ℚ) :
    List (String × ℚ) → Option (List CostRow × List PriceRow × List (String × ℚ))
  | [] => some ([], [], [])
  | rec :: rest =>
    match processRecord cat um uw rec with
    | none => none
    | some (c1, p1, n1) =>
      match processAll cat um uw rest with
      | none => none
      | some (c2, p2, n2) => some (c1 ++ c2, p1 ++ p2, n1 ++ n2)

/-- update_prices from src/app.py, from the extracted text lines and the
loaded catalog onward: parse the lines, strip the catalog headers, run the
record loop. The Excel byte streams and the generation timestamp are output
glue and are not modelled; a some result is exactly a run that produces its
three output tables. -/
def update_prices (lines : List String) (cat : Catalog) (um uw : ℚ) :
    Option (List CostRow × List PriceRow × List (String × ℚ)) :=
  match extract_data_from_pdf lines with
  | none => none
  | some recs => processAll (stripCols cat) um uw recs

/-- Whether a string starts with an ASCII digit. -/
def startsWithDigit (s : String) : Bool :=
  match s.data.head? with
  | some c => isDigitChar c
  | none => false

/-- Shape of every numeric token the price-line pattern can capture:
a nonempty run of digits or commas, a dot, and a nonempty digit run. -/
def costTokenShape (t : List Char) : Prop :=
  ∃ num frac, t = num ++ '.' :: frac ∧ num ≠ []
    ∧ (∀ c ∈ num, (isDigitChar c || c = ',') = true)
    ∧ frac ≠ [] ∧ (∀ c ∈ frac, isDigitChar c = true)

/-! ## Helper lemmas about whitespace stripping -/

theorem ratFloor_eq (q : ℚ) : ratFloor q = ⌊q⌋ := Rat.floor_def.symm

theorem head?_dropWhile_not {α : Type} (p : α → Bool) (l : List α) {c : α}
    (h : (l.dropWhile p).head? = some c) : p c = false := by
  induction l with
  | nil => simp [List.dropWhile] at h
  | cons a t ih =>
    by_cases hp : p a
    · rw [List.dropWhile_cons, if_pos hp] at h
      exact ih h
    · rw [List.dropWhile_cons, if_neg hp] at h
      simp only [List.head?_cons, Option.some.injEq] at h
      subst h
      exact Bool.eq_false_iff.mpr hp

theorem prefix_head? {α : Type} {l1 l2 : List α} (h : l1 <+: l2) {c : α}
    (hc : l1.head? = some c) : l2.head? = some c := by
  obtain ⟨t, rfl⟩ := h
  cases l1 with
  | nil => simp at hc
  | cons a s =>
    simp only [List.head?_cons, Option.some.injEq] at hc
    simp [hc]

theorem dropTrailSpace_eq_rdropWhile (l : List Char) :
    dropTrailSpace l = List.rdropWhile isSpaceChar l := rfl

theorem dropTrailSpace_prefix_self (l : List Char) : dropTrailSpace l <+: l := by
  rw [dropTrailSpace_eq_rdropWhile]
  exact List.rdropWhile_prefix isSpaceChar l

theorem dropWhile_dropTrailSpace (l : List Char) :
    (dropTrailSpace (l.dropWhile isSpaceChar)).dropWhile isSpaceChar
      = dropTrailSpace (l.dropWhile isSpaceChar) := by
  cases h : dropTrailSpace (l.dropWhile isSpaceChar) with
  | nil => simp [List.dropWhile]
  | cons c t =>
    have hc : (l.dropWhile isSpaceChar).head? = some c :=
      prefix_head? (dropTrailSpace_prefix_self (l.dropWhile isSpaceChar)) (by rw [h]; rfl)
    have hns : isSpaceChar c = false := head?_dropWhile_not isSpaceChar l hc
    rw [List.dropWhile_cons, if_neg (by simp [hns])]

theorem pyStrip_idem (l : List Char) : pyStrip (pyStrip l) = pyStrip l := by
  show dropTrailSpace ((dropTrailSpace (l.dropWhile isSpaceChar)).dropWhile isSpaceChar)
      = dropTrailSpace (l.dropWhile isSpaceChar)
  rw [dropWhile_dropTrailSpace l, dropTrailSpace_eq_rdropWhile,
    dropTrailSpace_eq_rdropWhile, List.rdropWhile_idempotent]

theorem stripLeadingCode_of_not_digit (l : List Char)
    (h : ∀ c, l.head? = some c → isDigitChar c = false) : stripLeadingCode l = l := by
  cases l with
  | nil => rfl
  | cons a t =>
    have ha : isDigitChar a = false := h a rfl
    simp [stripLeadingCode, List.takeWhile_cons, ha]

/-- The normalizer applied to an already-normalized description whose head is
not a digit is the identity: no code is removed and stripping is idempotent. -/
theorem clean_description_idem (s : String)
    (h : startsWithDigit (clean_description s) = false) :
    clean_description (clean_description s) = clean_description s := by
  unfold clean_description at h ⊢
  congr 1
  rw [stripLeadingCode_of_not_digit]
  · exact pyStrip_idem _
  · intro c hc
    unfold startsWithDigit at h
    revert h
    simp only [String.data]
    rw [hc]
    intro h
    exact h

/-! ## Helper lemmas about the modelled regular-expression engine -/

theorem parseRegexAux_of_metacharFree (l : List Char) (h : ∀ c ∈ l, c ∉ metachars) :
    parseRegexAux false l = some (l.map RAtom.lit) := by
  induction l with
  | nil => rfl
  | cons c t ih =>
    have hc : c ∉ metachars := h c (List.mem_cons_self c t)
    have hbs : ¬(c = '\\') := fun e => hc (by rw [e]; decide)
    have hdot : ¬(c = '.') := fun e => hc (by rw [e]; decide)
    simp only [parseRegexAux, if_neg hbs, if_neg hdot, if_neg hc, List.map_cons]
    rw [ih (fun x hx => h x (List.mem_cons_of_mem c hx))]
    rfl

theorem reMatchHere_lit (w : List Char) : ∀ l : List Char,
    reMatchHere (w.map RAtom.lit) l = (lowerL w).isPrefixOf (lowerL l) := by
  induction w with
  | nil => intro l; cases l <;> simp [reMatchHere, lowerL, List.isPrefixOf]
  | cons a w ih =>
    intro l
    cases l with
    | nil => simp [reMatchHere, lowerL, List.isPrefixOf]
    | cons b t =>
      have h2 := ih t
      simp only [lowerL] at h2
      simp only [List.map_cons, reMatchHere, atomMatches, lowerL, List.isPrefixOf, h2]

theorem reSearch_lit (w : List Char) : ∀ l : List Char,
    reSearch (w.map RAtom.lit) l = containsSub (lowerL w) (lowerL l) := by
  intro l
  induction l with
  | nil =>
    cases w <;> simp [reSearch, containsSub, reMatchHere, lowerL]
  | cons c t ih =>
    have h1 := reMatchHere_lit w (c :: t)
    simp only [lowerL, List.map_cons] at h1
    simp only [lowerL] at ih
    simp only [reSearch, containsSub, lowerL, List.map_cons, h1, ih]

theorem rowMatchesRe_lit (d : String) (r : CatRow) :
    rowMatchesRe (d.data.map RAtom.lit) r = specLiteralContains d r := by
  unfold rowMatchesRe specLiteralContains
  cases h : (r.lookup "PRODUCTO").join with
  | none => rfl
  | some p =>
    show reSearch (List.map RAtom.lit d.data) p.data
        = containsSub (lowerL d.data) (lowerL p.data)
    exact reSearch_lit d.data p.data

theorem catalogMatch_of_metacharFree (d : String) (rows : List CatRow)
    (h : metacharFree d) :
    catalogMatch d rows = some (specCatalogMatcher d rows) := by
  unfold catalogMatch parseRegex specCatalogMatcher
  rw [parseRegexAux_of_metacharFree d.data h]
  have hfun : rowMatchesRe (d.data.map RAtom.lit) = specLiteralContains d :=
    funext fun r => rowMatchesRe_lit d r
  simp [hfun]

theorem reSearch_nil_re (l : List Char) : reSearch [] l = true := by
  cases l <;> simp [reSearch, reMatchHere]

theorem rowMatchesRe_nil (r : CatRow) :
    rowMatchesRe [] r = ((r.lookup "PRODUCTO").join).isSome := by
  unfold rowMatchesRe
  cases h : (r.lookup "PRODUCTO").join with
  | none => rfl
  | some p => simp [reSearch_nil_re]

theorem catalogMatch_empty_pattern (rows : List CatRow) :
    catalogMatch "" rows
      = some (rows.filter (fun r => ((r.lookup "PRODUCTO").join).isSome)) := by
  unfold catalogMatch parseRegex
  have h0 : ("" : String).data = [] := rfl
  rw [h0]
  have hfun : rowMatchesRe ([] : List RAtom)
      = (fun r => ((r.lookup "PRODUCTO").join).isSome) :=
    funext fun r => rowMatchesRe_nil r
  simp [parseRegexAux, hfun]

/-! ## Helper lemmas about the record loop -/

theorem processRecord_of_match (cat : Catalog) (um uw : ℚ) (rec : String × ℚ)
    (matched : List CatRow) (hP : "PRODUCTO" ∈ cat.cols)
    (hcm : catalogMatch rec.1 cat.rows = some matched) :
    processRecord cat um uw rec =
      if matched.isEmpty then some ([], [], [rec])
      else if "CODIGO" ∈ cat.cols then
        some (matched.map (fun r => costRowOf r rec.2),
              matched.map (fun r => priceRowOf r rec.2 um uw), [])
      else none := by
  unfold processRecord
  rw [if_pos hP, hcm]

theorem processRecord_no_producto (cat : Catalog) (um uw : ℚ) (rec : String × ℚ)
    (hP : "PRODUCTO" ∉ cat.cols) : processRecord cat um uw rec = none := by
  unfold processRecord
  rw [if_neg hP]

theorem processRecord_pattern_err (cat : Catalog) (um uw : ℚ) (rec : String × ℚ)
    (hP : "PRODUCTO" ∈ cat.cols) (hcm : catalogMatch rec.1 cat.rows = none) :
    processRecord cat um uw rec = none := by
  unfold processRecord
  rw [if_pos hP, hcm]

/-! ## Shape of captured numeric tokens -/

theorem matchTail_shape (l : List Char) (t : List Char) (h : matchTail l = some t) :
    costTokenShape t := by
  simp only [matchTail] at h
  split_ifs at h with h1 h2 h3 h4 h5
  cases h
  refine ⟨_, _, rfl, ?_, ?_, ?_, ?_⟩
  · intro e
    rw [e] at h3
    simp at h3
  · intro c hc
    simpa using List.mem_takeWhile_imp hc
  · intro e
    rw [e] at h5
    simp at h5
  · intro c hc
    simpa using List.mem_takeWhile_imp hc

theorem matchDescAux_shape : ∀ (l acc d t : List Char),
    matchDescAux acc l = some (d, t) → costTokenShape t := by
  intro l
  induction l with
  | nil =>
    intro acc d t h
    exact absurd h (by simp [matchDescAux])
  | cons c rest ih =>
    intro acc d t h
    simp only [matchDescAux] at h
    split at h
    · exact absurd h (by simp)
    · split at h
      · rename_i tok heq
        simp only [Option.some.injEq, Prod.mk.injEq] at h
        exact h.2 ▸ matchTail_shape rest tok heq
      · exact ih (acc ++ [c]) d t h

theorem matchDesc_shape (l d t : List Char) (h : matchDesc l = some (d, t)) :
    costTokenShape t :=
  matchDescAux_shape l [] d t h

theorem trySpaces_shape : ∀ (j : Nat) (l1 d t : List Char),
    trySpaces j l1 = some (d, t) → costTokenShape t := by
  intro j
  induction j with
  | zero =>
    intro l1 d t h
    exact absurd h (by simp [trySpaces])
  | succ j ih =>
    intro l1 d t h
    simp only [trySpaces] at h
    cases hm : matchDesc (l1.drop (j + 1)) with
    | some r =>
      rw [hm, Option.some_orElse] at h
      cases h
      exact matchDesc_shape _ _ _ hm
    | none =>
      rw [hm, Option.none_orElse] at h
      exact ih l1 d t h

theorem tryPresent_shape (l d t : List Char) (h : tryPresent l = some (d, t)) :
    costTokenShape t := by
  simp only [tryPresent] at h
  split at h
  · exact absurd h (by simp)
  · split at h
    · exact absurd h (by simp)
    · exact trySpaces_shape _ _ _ _ h

theorem matchFrom_shape (l d t : List Char) (h : matchFrom l = some (d, t)) :
    costTokenShape t := by
  unfold matchFrom at h
  cases hp : tryPresent l with
  | some r =>
    rw [hp, Option.some_orElse] at h
    cases h
    exact tryPresent_shape _ _ _ hp
  | none =>
    rw [hp, Option.none_orElse] at h
    exact matchDesc_shape _ _ _ h

theorem searchLine_shape : ∀ (l d t : List Char),
    searchLine l = some (d, t) → costTokenShape t := by
  intro l
  induction l with
  | nil =>
    intro d t h
    exact absurd h (by simp [searchLine])
  | cons c rest ih =>
    intro d t h
    simp only [searchLine] at h
    cases hm : matchFrom (c :: rest) with
    | some r =>
      rw [hm, Option.some_orElse] at h
      cases h
      exact matchFrom_shape _ _ _ hm
    | none =>
      rw [hm, Option.none_orElse] at h
      exact ih d t h

/-! ## The numeric conversion succeeds on every captured token -/

theorem takeWhile_append_all (p : Char → Bool) (xs ys : List Char)
    (hx : ∀ c ∈ xs, p c = true) (hy : ∀ c, ys.head? = some c → p c = false) :
    (xs ++ ys).takeWhile p = xs := by
  induction xs with
  | nil =>
    cases ys with
    | nil => rfl
    | cons c t =>
      simp [List.takeWhile_cons, hy c rfl]
  | cons a xs ih =>
    have ha : p a = true := hx a (List.mem_cons_self a xs)
    simp only [List.cons_append, List.takeWhile_cons, ha, if_true]
    rw [ih (fun c hc => hx c (List.mem_cons_of_mem a hc))]

theorem isDigitChar_ne_chars {c : Char} (h : isDigitChar c = true) :
    c ≠ '-' ∧ c ≠ '+' ∧ c ≠ '.' ∧ c ≠ ',' := by
  refine ⟨?_, ?_, ?_, ?_⟩ <;> intro e <;> rw [e] at h <;> exact absurd h (by decide)

theorem pyFloatUnsigned_digits_dot (ds fs : List Char)
    (hds : ∀ c ∈ ds, isDigitChar c = true) (hfs : ∀ c ∈ fs, isDigitChar c = true)
    (hfne : fs ≠ []) :
    pyFloatUnsigned (ds ++ '.' :: fs)
      = some (digitsVal ds + digitsVal fs / (10 : ℚ) ^ fs.length) := by
  have hip : (ds ++ '.' :: fs).takeWhile isDigitChar = ds :=
    takeWhile_append_all isDigitChar ds ('.' :: fs) hds
      (by intro c hc; cases hc; decide)
  have hdrop : (ds ++ '.' :: fs).drop ds.length = '.' :: fs := List.drop_left ds ('.' :: fs)
  have hfp : fs.takeWhile isDigitChar = fs := List.takeWhile_eq_self_iff.mpr hfs
  simp only [pyFloatUnsigned, hip, hdrop]
  rw [if_neg (by simp)]
  rw [if_pos (by rfl)]
  simp only [List.drop_one, List.tail_cons, hfp, List.drop_length]
  rw [if_neg (by simp)]
  rw [if_neg (by simp [hfne])]

theorem pyFloat_digits_dot (ds fs : List Char)
    (hds : ∀ c ∈ ds, isDigitChar c = true) (hfs : ∀ c ∈ fs, isDigitChar c = true)
    (hfne : fs ≠ []) :
    pyFloat (ds ++ '.' :: fs)
      = some (digitsVal ds + digitsVal fs / (10 : ℚ) ^ fs.length) := by
  have hhead : ∀ c, (ds ++ '.' :: fs).head? = some c → c ≠ '-' ∧ c ≠ '+' := by
    intro c hc
    cases ds with
    | nil =>
      simp only [List.nil_append, List.head?_cons, Option.some.injEq] at hc
      subst hc
      exact ⟨by decide, by decide⟩
    | cons a t =>
      simp only [List.cons_append, List.head?_cons, Option.some.injEq] at hc
      subst hc
      have h3 := isDigitChar_ne_chars (hds _ (List.mem_cons_self _ t))
      exact ⟨h3.1, h3.2.1⟩
  unfold pyFloat
  rw [if_neg, if_neg]
  · exact pyFloatUnsigned_digits_dot ds fs hds hfs hfne
  · intro e
    exact (hhead '+' e).2 rfl
  · intro e
    exact (hhead '-' e).1 rfl

theorem convertCost_of_shape (t : List Char) (h : costTokenShape t) :
    ∃ q, convertCost t = some q := by
  obtain ⟨num, frac, rfl, hne, hnum, hfne, hfrac⟩ := h
  have hfilter_frac : frac.filter (fun c => c ≠ ',') = frac := by
    rw [List.filter_eq_self]
    intro c hc
    have := isDigitChar_ne_chars (hfrac c hc)
    simp [this.2.2.2]
  have hsplit : stripCommas (num ++ '.' :: frac)
      = (num.filter (fun c => c ≠ ',')) ++ '.' :: frac := by
    unfold stripCommas
    rw [List.filter_append, List.filter_cons]
    rw [if_pos (by decide)]
    rw [hfilter_frac]
  have hds : ∀ c ∈ num.filter (fun c => c ≠ ','), isDigitChar c = true := by
    intro c hc
    rw [List.mem_filter] at hc
    have h1 := hnum c hc.1
    have h2 := hc.2
    simp only [Bool.or_eq_true] at h1
    cases h1 with
    | inl hd => exact hd
    | inr he => simp [he] at h2
  refine ⟨digitsVal (num.filter (fun c => c ≠ ','))
      + digitsVal frac / (10 : ℚ) ^ frac.length, ?_⟩
  unfold convertCost
  rw [hsplit]
  exact pyFloat_digits_dot _ _ hds hfrac hfne

theorem lineRecord_isSome (line : String) : (lineRecord line).isSome = true := by
  unfold lineRecord
  cases hs : searchLine line.data with
  | none => rfl
  | some r =>
    obtain ⟨d, t⟩ := r
    obtain ⟨q, hq⟩ := convertCost_of_shape t (searchLine_shape line.data d t hs)
    show ((convertCost t).map (fun q => some (clean_description (String.mk d), q))).isSome = true
    rw [hq]
    rfl

theorem extract_data_from_pdf_isSome (lines : List String) :
    (extract_data_from_pdf lines).isSome = true := by
  induction lines with
  | nil => rfl
  | cons line rest ih =>
    simp only [extract_data_from_pdf]
    cases hl : lineRecord line with
    | none => exact absurd (lineRecord_isSome line) (by simp [hl])
    | some r =>
      cases he : extract_data_from_pdf rest with
      | none =>
        rw [he] at ih
        exact absurd ih (by simp)
      | some rs => rfl

/-! ## Per-record and whole-run structure of the record loop -/

theorem processRecord_some_cases (cat : Catalog) (um uw : ℚ) (rec : String × ℚ)
    (out : List CostRow × List PriceRow × List (String × ℚ))
    (h : processRecord cat um uw rec = some out) :
    ∃ matched, catalogMatch rec.1 cat.rows = some matched
      ∧ ((matched.isEmpty = true ∧ out = ([], [], [rec]))
        ∨ (matched.isEmpty = false
            ∧ out = (matched.map (fun r => costRowOf r rec.2),
                     matched.map (fun r => priceRowOf r rec.2 um uw), []))) := by
  by_cases hP : "PRODUCTO" ∈ cat.cols
  · unfold processRecord at h
    rw [if_pos hP] at h
    cases hcm : catalogMatch rec.1 cat.rows with
    | none =>
      rw [hcm] at h
      exact Option.noConfusion h
    | some matched =>
      simp only [hcm] at h
      by_cases hM : matched.isEmpty = true
      · rw [if_pos hM] at h
        simp only [Option.some.injEq] at h
        exact ⟨matched, rfl, Or.inl ⟨hM, h.symm⟩⟩
      · rw [if_neg hM] at h
        by_cases hC : "CODIGO" ∈ cat.cols
        · rw [if_pos hC] at h
          simp only [Option.some.injEq] at h
          exact ⟨matched, rfl, Or.inr ⟨Bool.eq_false_iff.mpr hM, h.symm⟩⟩
        · rw [if_neg hC] at h
          exact Option.noConfusion h
  · rw [processRecord_no_producto cat um uw rec hP] at h
    exact Option.noConfusion h

theorem length_filter_partition {α : Type} (p : α → Bool) (l : List α) :
    l.length = (l.filter p).length + (l.filter (fun a => !(p a))).length := by
  induction l with
  | nil => rfl
  | cons a t ih =>
    by_cases h : p a <;> simp [List.filter_cons, h, ih] <;> omega

theorem processAll_spec (cat : Catalog) (um uw : ℚ) :
    ∀ (recs : List (String × ℚ)) out, processAll cat um uw recs = some out →
      out.2.2 = recs.filter (fun r => (matchedRows cat r.1).isEmpty)
      ∧ ∀ r ∈ recs, ∃ cs ps ns, processRecord cat um uw r = some (cs, ps, ns)
          ∧ ((1 ≤ cs.length ∧ ns = []) ∨ (cs = [] ∧ ns = [r])) := by
  intro recs
  induction recs with
  | nil =>
    intro out h
    simp only [processAll, Option.some.injEq] at h
    subst h
    exact ⟨rfl, by simp⟩
  | cons rec rest ih =>
    intro out h
    simp only [processAll] at h
    cases h1 : processRecord cat um uw rec with
    | none =>
      rw [h1] at h
      exact Option.noConfusion h
    | some y =>
      obtain ⟨c1, p1, n1⟩ := y
      simp only [h1] at h
      cases h2 : processAll cat um uw rest with
      | none =>
        rw [h2] at h
        exact Option.noConfusion h
      | some z =>
        obtain ⟨c2, p2, n2⟩ := z
        simp only [h2, Option.some.injEq] at h
        subst h
        obtain ⟨hnf2, hall2⟩ := ih (c2, p2, n2) h2
        have hn2 : n2 = rest.filter (fun r => (matchedRows cat r.1).isEmpty) := hnf2
        obtain ⟨matched, hcm, hbr⟩ := processRecord_some_cases cat um uw rec (c1, p1, n1) h1
        have hmr : matchedRows cat rec.1 = matched := by
          unfold matchedRows
          rw [hcm]
          rfl
        cases hbr with
        | inl he =>
          obtain ⟨hM, hout⟩ := he
          simp only [Prod.mk.injEq] at hout
          obtain ⟨hc1, hp1, hn1⟩ := hout
          subst hc1; subst hp1; subst hn1
          constructor
          · show [rec] ++ n2 = _
            rw [List.filter_cons]
            simp only [hmr, hM, if_true]
            rw [hn2]
            rfl
          · intro r hr
            cases hr with
            | head => exact ⟨[], [], [rec], h1, Or.inr ⟨rfl, rfl⟩⟩
            | tail _ hmem => exact hall2 r hmem
        | inr he =>
          obtain ⟨hM, hout⟩ := he
          simp only [Prod.mk.injEq] at hout
          obtain ⟨hc1, hp1, hn1⟩ := hout
          subst hc1; subst hp1; subst hn1
          constructor
          · show [] ++ n2 = _
            rw [List.filter_cons]
            simp only [hmr, hM]
            simp only [Bool.false_eq_true, if_false]
            rw [hn2]
            rfl
          · intro r hr
            cases hr with
            | head =>
              refine ⟨_, _, _, h1, Or.inl ⟨?_, rfl⟩⟩
              rw [List.length_map]
              have : matched ≠ [] := by
                intro e
                rw [e] at hM
                simp at hM
              exact Nat.one_le_iff_ne_zero.mpr (by
                intro e
                exact this (List.length_eq_zero.mp e))
            | tail _ hmem => exact hall2 r hmem

/-! ## Fatal paths of the record loop -/

theorem processRecord_none_of_codigo_missing (cat : Catalog) (um uw : ℚ)
    (rec : String × ℚ) (matched : List CatRow) (hC : "CODIGO" ∉ cat.cols)
    (hcm : catalogMatch rec.1 cat.rows = some matched) (hne : matched ≠ []) :
    processRecord cat um uw rec = none := by
  by_cases hP : "PRODUCTO" ∈ cat.cols
  · rw [processRecord_of_match cat um uw rec matched hP hcm]
    rw [if_neg (by simp [hne])]
    rw [if_neg hC]
  · exact processRecord_no_producto _ _ _ _ hP

theorem processAll_none_codigo (cat : Catalog) (um uw : ℚ) (hC : "CODIGO" ∉ cat.cols) :
    ∀ recs : List (String × ℚ),
      (∃ r ∈ recs, ∃ matched, catalogMatch r.1 cat.rows = some matched ∧ matched ≠ []) →
      processAll cat um uw recs = none := by
  intro recs
  induction recs with
  | nil =>
    rintro ⟨r, hr, -⟩
    exact absurd hr (List.not_mem_nil r)
  | cons rec rest ih =>
    rintro ⟨r, hr, matched, hcm, hne⟩
    rcases List.mem_cons.mp hr with he | hmem
    · subst he
      have h0 := processRecord_none_of_codigo_missing cat um uw r matched hC hcm hne
      simp only [processAll, h0]
    · have h0 := ih ⟨r, hmem, matched, hcm, hne⟩
      cases h1 : processRecord cat um uw rec with
      | none => simp only [processAll, h1]
      | some y =>
        simp only [processAll, h1, h0]

theorem processAll_none_producto (cat : Catalog) (um uw : ℚ)
    (hP : "PRODUCTO" ∉ cat.cols) :
    ∀ recs : List (String × ℚ), recs ≠ [] → processAll cat um uw recs = none := by
  intro recs h
  cases recs with
  | nil => exact absurd rfl h
  | cons rec rest =>
    have h0 := processRecord_no_producto cat um uw rec hP
    simp only [processAll, h0]

/-! ## The rounding function and its monotonicity -/

theorem rhe_le (q : ℚ) : (rhe q : ℚ) ≤ q + 1/2 := by
  have h1 : ((⌊q⌋ : ℤ) : ℚ) ≤ q := Int.floor_le q
  have h2 : q < ⌊q⌋ + 1 := Int.lt_floor_add_one q
  unfold rhe
  rw [ratFloor_eq]
  split_ifs with ha hb hc
  · linarith
  · push_cast
    linarith
  · linarith
  · push_cast
    linarith

theorem rhe_ge (q : ℚ) : q - 1/2 ≤ (rhe q : ℚ) := by
  have h1 : ((⌊q⌋ : ℤ) : ℚ) ≤ q := Int.floor_le q
  have h2 : q < ⌊q⌋ + 1 := Int.lt_floor_add_one q
  unfold rhe
  rw [ratFloor_eq]
  split_ifs with ha hb hc
  · linarith
  · push_cast
    linarith
  · linarith
  · push_cast
    linarith

theorem rhe_eq_add_half {q : ℚ} (h : (rhe q : ℚ) = q + 1/2) :
    ¬(⌊q⌋ % 2 = 0) ∧ q - ⌊q⌋ = 1/2 := by
  have h1 : ((⌊q⌋ : ℤ) : ℚ) ≤ q := Int.floor_le q
  have h2 : q < ⌊q⌋ + 1 := Int.lt_floor_add_one q
  unfold rhe at h
  rw [ratFloor_eq] at h
  split_ifs at h with ha hb hc
  · linarith
  · push_cast at h
    linarith
  · linarith
  · push_cast at h
    exact ⟨hc, by linarith⟩

theorem rhe_eq_sub_half {q : ℚ} (h : (rhe q : ℚ) = q - 1/2) :
    ⌊q⌋ % 2 = 0 ∧ q - ⌊q⌋ = 1/2 := by
  have h1 : ((⌊q⌋ : ℤ) : ℚ) ≤ q := Int.floor_le q
  have h2 : q < ⌊q⌋ + 1 := Int.lt_floor_add_one q
  unfold rhe at h
  rw [ratFloor_eq] at h
  split_ifs at h with ha hb hc
  · linarith
  · push_cast at h
    linarith
  · exact ⟨hc, by linarith⟩
  · push_cast at h
    linarith

theorem rhe_mono {x y : ℚ} (hxy : x ≤ y) : rhe x ≤ rhe y := by
  by_contra hlt
  push_neg at hlt
  have hstep : rhe y + 1 ≤ rhe x := hlt
  have hstepQ : ((rhe y : ℤ) : ℚ) + 1 ≤ ((rhe x : ℤ) : ℚ) := by exact_mod_cast hstep
  have hx : ((rhe x : ℤ) : ℚ) ≤ x + 1/2 := rhe_le x
  have hy : y - 1/2 ≤ ((rhe y : ℤ) : ℚ) := rhe_ge y
  have hxeq : ((rhe x : ℤ) : ℚ) = x + 1/2 := by linarith
  have hyeq : ((rhe y : ℤ) : ℚ) = y - 1/2 := by linarith
  have hxy' : x = y := by linarith
  have hox := rhe_eq_add_half hxeq
  have hoy := rhe_eq_sub_half hyeq
  rw [hxy'] at hox
  exact hox.1 hoy.1

theorem round2_mono {x y : ℚ} (hxy : x ≤ y) : round2 x ≤ round2 y := by
  unfold round2
  have h : rhe (x * 100) ≤ rhe (y * 100) := rhe_mono (by linarith)
  have h2 : ((rhe (x * 100) : ℤ) : ℚ) ≤ ((rhe (y * 100) : ℤ) : ℚ) := by exact_mod_cast h
  linarith

theorem rhe_intCast (n : ℤ) : rhe ((n : ℤ) : ℚ) = n := by
  unfold rhe
  rw [ratFloor_eq, Int.floor_intCast]
  rw [if_pos (by norm_num)]

theorem round2_of_cents (q : ℚ) (n : ℤ) (h : q * 100 = (n : ℚ)) :
    round2 q = (n : ℚ) / 100 := by
  unfold round2
  rw [h, rhe_intCast]

/-! ## Concrete evaluation helpers -/

theorem isSpaceChar_not_digit (c : Char) (h : isSpaceChar c = true) :
    isDigitChar c = false := by
  unfold isSpaceChar at h
  simp only [Bool.or_eq_true, decide_eq_true_eq] at h
  rcases h with ((((h | h) | h) | h) | h) | h <;> subst h <;> decide

theorem digitsVal_eq (l : List Char) (n : ℕ) (h : digitsToNat l = n) :
    digitsVal l = (n : ℚ) := by
  rw [digitsVal, h]

theorem lineRecord_eq_of (line : String) (d t : List Char) (q : ℚ)
    (hs : searchLine line.data = some (d, t)) (hc : convertCost t = some q) :
    lineRecord line = some (some (clean_description (String.mk d), q)) := by
  unfold lineRecord
  rw [hs]
  show ((convertCost t).map (fun q => some (clean_description (String.mk d), q))) = _
  rw [hc]
  rfl

theorem extract_data_one (line : String) (d : String) (q : ℚ)
    (h : lineRecord line = some (some (d, q))) :
    extract_data_from_pdf [line] = some [(d, q)] := by
  simp only [extract_data_from_pdf]
  rw [h]
  rfl

theorem convertCost_bluepaint : convertCost ("1,234.50".data) = some ((2469 : ℚ)/2) := by
  have h1 : stripCommas ("1,234.50".data) = ['1', '2', '3', '4'] ++ '.' :: ['5', '0'] := by
    decide
  unfold convertCost
  rw [h1, pyFloat_digits_dot _ _ (by decide) (by decide) (by decide)]
  rw [digitsVal_eq ['1', '2', '3', '4'] 1234 (by decide), digitsVal_eq ['5', '0'] 50 (by decide)]
  simp only [Option.some.injEq]
  norm_num

theorem convertCost_ten : convertCost ("10.00".data) = some (10 : ℚ) := by
  have h1 : stripCommas ("10.00".data) = ['1', '0'] ++ '.' :: ['0', '0'] := by decide
  unfold convertCost
  rw [h1, pyFloat_digits_dot _ _ (by decide) (by decide) (by decide)]
  rw [digitsVal_eq ['1', '0'] 10 (by decide), digitsVal_eq ['0', '0'] 0 (by decide)]
  simp only [Option.some.injEq]
  norm_num

theorem convertCost_twoz : convertCost ("2.00".data) = some (2 : ℚ) := by
  have h1 : stripCommas ("2.00".data) = ['2'] ++ '.' :: ['0', '0'] := by decide
  unfold convertCost
  rw [h1, pyFloat_digits_dot _ _ (by decide) (by decide) (by decide)]
  rw [digitsVal_eq ['2'] 2 (by decide), digitsVal_eq ['0', '0'] 0 (by decide)]
  simp only [Option.some.injEq]
  norm_num

/-! ## Claim theorems -/

/-- C1 (counterexample): the claim says the Catalog Matcher returns exactly
the rows whose product field, case-folded, contains the description
literally, regex special characters escaped. With the description a.c the
code-level matcher returns the row with product abc, although abc does not
contain a.c as a literal substring (the spec-level literal matcher returns
nothing): str.contains compiles the description as a regular expression and
the dot matches the letter b. -/
theorem claim_C1_counterexample :
    catalogMatch "a.c" [[("CODIGO", some "1"), ("PRODUCTO", some "abc")]]
        = some [[("CODIGO", some "1"), ("PRODUCTO", some "abc")]]
    ∧ specCatalogMatcher "a.c" [[("CODIGO", some "1"), ("PRODUCTO", some "abc")]] = [] :=
  ⟨by decide, by decide⟩

/-- C1 (amended): for every normalized description free of regex
metacharacters, the Catalog Matcher returns exactly those catalog rows whose
product-name field, case-folded, contains the description case-folded as a
literal substring, and no other rows; a description containing a regex
metacharacter is instead interpreted as a regular expression, since the code
does not escape it. -/
theorem claim_C1 (d : String) (rows : List CatRow) (h : metacharFree d) :
    catalogMatch d rows = some (specCatalogMatcher d rows) :=
  catalogMatch_of_metacharFree d rows h

/-- Witness for C1 at a concrete metacharacter-free description. -/
theorem claim_C1_witness :
    metacharFree "red"
    ∧ catalogMatch "red" [[("PRODUCTO", some "Red Hammer 16oz")]]
        = some (specCatalogMatcher "red" [[("PRODUCTO", some "Red Hammer 16oz")]]) :=
  ⟨by decide, claim_C1 "red" [[("PRODUCTO", some "Red Hammer 16oz")]] (by decide)⟩

/-- C2: in every successful run, every parsed record contributes to exactly
one of the two outcomes, at least one matched entry or exactly one unmatched
entry, never both and never neither; the unmatched table is exactly the
sublist of records with an empty match set, and the record count equals the
unmatched count plus the count of records with a nonempty match set. -/
theorem claim_C2 (lines : List String) (cat : Catalog) (um uw : ℚ)
    (costs : List CostRow) (prices : List PriceRow) (nf : List (String × ℚ))
    (h : update_prices lines cat um uw = some (costs, prices, nf)) :
    ∃ recs, extract_data_from_pdf lines = some recs
      ∧ (∀ r ∈ recs, ∃ cs ps ns,
            processRecord (stripCols cat) um uw r = some (cs, ps, ns)
            ∧ ((1 ≤ cs.length ∧ ns = []) ∨ (cs = [] ∧ ns = [r])))
      ∧ nf = recs.filter (fun r => (matchedRows (stripCols cat) r.1).isEmpty)
      ∧ recs.length = nf.length
          + (recs.filter (fun r => !((matchedRows (stripCols cat) r.1).isEmpty))).length := by
  unfold update_prices at h
  cases he : extract_data_from_pdf lines with
  | none =>
    rw [he] at h
    exact Option.noConfusion h
  | some recs =>
    rw [he] at h
    obtain ⟨hnf, hall⟩ := processAll_spec (stripCols cat) um uw recs (costs, prices, nf) h
    have hnf2 : nf = recs.filter (fun r => (matchedRows (stripCols cat) r.1).isEmpty) := hnf
    refine ⟨recs, rfl, hall, hnf2, ?_⟩
    rw [hnf2]
    exact length_filter_partition _ recs

/-- C3 (counterexample): the claim says a catalog missing a required header
makes the run abort with no output regardless of the PDF content. With a
catalog whose only header is X, missing both required names, and a document
yielding no parsed records, the run completes and produces its three
(empty) output tables: the missing columns are only ever touched inside the
per-record loop. -/
theorem claim_C3_counterexample :
    ("PRODUCTO" ∉ (stripCols ⟨["X"], []⟩).cols ∧ "CODIGO" ∉ (stripCols ⟨["X"], []⟩).cols)
    ∧ update_prices [] ⟨["X"], []⟩ 45 15 = some ([], [], []) :=
  ⟨⟨by decide, by decide⟩, by decide⟩

/-- C3 (amended): if the stripped catalog headers lack PRODUCTO and at least
one record was parsed, the run aborts with no output; if they lack CODIGO
and at least one parsed record has a nonempty match set, the run aborts with
no output. With no parsed records (or, for CODIGO, no matching record) the
run completes despite the missing header. -/
theorem claim_C3 (lines : List String) (cat : Catalog) (um uw : ℚ) :
    ("PRODUCTO" ∉ (stripCols cat).cols →
      ∀ recs, extract_data_from_pdf lines = some recs → recs ≠ [] →
        update_prices lines cat um uw = none)
    ∧ ("CODIGO" ∉ (stripCols cat).cols →
      ∀ recs, extract_data_from_pdf lines = some recs →
        (∃ r ∈ recs, ∃ matched,
            catalogMatch r.1 (stripCols cat).rows = some matched ∧ matched ≠ []) →
        update_prices lines cat um uw = none) := by
  constructor
  · intro hP recs he hne
    unfold update_prices
    rw [he]
    exact processAll_none_producto _ um uw hP recs hne
  · intro hC recs he hex
    unfold update_prices
    rw [he]
    exact processAll_none_codigo _ um uw hC recs hex

/-- Witness for C3: a run with one parsed record against a catalog missing
both headers aborts, and a run with one matching record against a catalog
missing only CODIGO aborts. -/
theorem claim_C3_witness :
    update_prices ["1 a $ 2.00"] ⟨["X"], []⟩ 45 15 = none
    ∧ update_prices ["1 abc $ 2.00"] ⟨["PRODUCTO"], [[("PRODUCTO", some "abc")]]⟩ 45 15
        = none := by
  have hlr1 := lineRecord_eq_of "1 a $ 2.00" ("a".data) ("2.00".data) 2 (by decide) convertCost_twoz
  have hcln1 : clean_description (String.mk ("a".data)) = "a" := by decide
  rw [hcln1] at hlr1
  have hex1 := extract_data_one "1 a $ 2.00" "a" 2 hlr1
  have hlr2 := lineRecord_eq_of "1 abc $ 2.00" ("abc".data) ("2.00".data) 2 (by decide) convertCost_twoz
  have hcln2 : clean_description (String.mk ("abc".data)) = "abc" := by decide
  rw [hcln2] at hlr2
  have hex2 := extract_data_one "1 abc $ 2.00" "abc" 2 hlr2
  constructor
  · exact (claim_C3 ["1 a $ 2.00"] ⟨["X"], []⟩ 45 15).1 (by decide) [("a", 2)] hex1 (by simp)
  · exact (claim_C3 ["1 abc $ 2.00"] ⟨["PRODUCTO"], [[("PRODUCTO", some "abc")]]⟩ 45 15).2
      (by decide) [("abc", 2)] hex2
      ⟨("abc", 2), List.mem_cons_self _ _, [[("PRODUCTO", some "abc")]], by decide, by simp⟩

/-- C4: the computed price, round(cost times one plus margin over one
hundred, two decimals), is non-decreasing in the margin for every fixed
non-negative cost, and at margin zero it equals the cost rounded to two
decimals. Both the minorista and the mayorista price of the code are
priceCalc applied to their own margin. -/
theorem claim_C4 (cost m1 m2 : ℚ) (hc : 0 ≤ cost) (_h0 : 0 ≤ m1) (h12 : m1 ≤ m2) :
    priceCalc cost m1 ≤ priceCalc cost m2 ∧ priceCalc cost 0 = round2 cost := by
  constructor
  · unfold priceCalc
    apply round2_mono
    have hm : 1 + m1 / 100 ≤ 1 + m2 / 100 := by linarith
    exact mul_le_mul_of_nonneg_left hm hc
  · unfold priceCalc
    norm_num

/-- Witness for C4 at cost ten and margins twenty and forty-five. -/
theorem claim_C4_witness :
    (0 : ℚ) ≤ 10 ∧ (0 : ℚ) ≤ 20 ∧ (20 : ℚ) ≤ 45
    ∧ (priceCalc 10 20 ≤ priceCalc 10 45 ∧ priceCalc 10 0 = round2 10) :=
  ⟨by norm_num, by norm_num, by norm_num,
    claim_C4 10 20 45 (by norm_num) (by norm_num) (by norm_num)⟩

/-- C5: the Record Parser maps the line 123 Blue Paint dollar 1,234.50 to
exactly the record (Blue Paint, 1234.50), and the line Blue Paint dollar
1234, whose numeric token has no decimal point, to no record at all. -/
theorem claim_C5 :
    lineRecord "123 Blue Paint $ 1,234.50" = some (some ("Blue Paint", (2469 : ℚ)/2))
    ∧ lineRecord "Blue Paint $1234" = some none := by
  constructor
  · have hs : searchLine ("123 Blue Paint $ 1,234.50").data
        = some ("Blue Paint".data, "1,234.50".data) := by decide
    have h := lineRecord_eq_of _ _ _ _ hs convertCost_bluepaint
    have hcln : clean_description (String.mk ("Blue Paint".data)) = "Blue Paint" := by decide
    rw [hcln] at h
    exact h
  · have hs : searchLine ("Blue Paint $1234").data = none := by decide
    unfold lineRecord
    rw [hs]

/-- C6: matching containment direction. The catalog row with product ABC
Widget Pro is returned for the description widget pro (case-insensitive
substring of the catalog text) but not for the description ABC Widget Pro
XL: the catalog text must contain the parsed description, not the reverse. -/
theorem claim_C6 :
    catalogMatch "widget pro" [[("CODIGO", some "Z9"), ("PRODUCTO", some "ABC Widget Pro")]]
        = some [[("CODIGO", some "Z9"), ("PRODUCTO", some "ABC Widget Pro")]]
    ∧ catalogMatch "ABC Widget Pro XL"
          [[("CODIGO", some "Z9"), ("PRODUCTO", some "ABC Widget Pro")]]
        = some [] :=
  ⟨by decide, by decide⟩

/-- C7: the Description Normalizer is idempotent on every input whose
normalized form does not itself begin with a digit run. -/
theorem claim_C7 (s : String) (h : startsWithDigit (clean_description s) = false) :
    clean_description (clean_description s) = clean_description s :=
  clean_description_idem s h

/-- Witness for C7 at the input 123 abc. -/
theorem claim_C7_witness :
    startsWithDigit (clean_description "123 abc") = false
    ∧ clean_description (clean_description "123 abc") = clean_description "123 abc" :=
  ⟨by decide, claim_C7 "123 abc" (by decide)⟩

/-- C8: the end-to-end scenario. With the catalog holding exactly the row
code A1, product Red Hammer 16oz, the single price line 045 Red Hammer
dollar 10.00, and margins of forty-five and fifteen percent, the run
produces exactly one updated-costs row (A1, Red Hammer 16oz, cost ten), one
prices row (A1, 14.50, 11.50) and no unmatched rows. -/
theorem claim_C8 :
    update_prices ["045 Red Hammer $ 10.00"]
        ⟨["CODIGO", "PRODUCTO"],
          [[("CODIGO", some "A1"), ("PRODUCTO", some "Red Hammer 16oz")]]⟩ 45 15
      = some ([{ codigo := some "A1", producto := some "Red Hammer 16oz", costo := 10 }],
              [{ codigo := some "A1", minorista := (29 : ℚ)/2, mayorista := (23 : ℚ)/2 }],
              []) := by
  have hs : searchLine ("045 Red Hammer $ 10.00").data
      = some ("Red Hammer".data, "10.00".data) := by decide
  have hlr := lineRecord_eq_of _ _ _ _ hs convertCost_ten
  have hcln : clean_description (String.mk ("Red Hammer".data)) = "Red Hammer" := by decide
  rw [hcln] at hlr
  have hex := extract_data_one _ _ _ hlr
  unfold update_prices
  rw [hex]
  have hcm : catalogMatch "Red Hammer"
      (stripCols ⟨["CODIGO", "PRODUCTO"],
        [[("CODIGO", some "A1"), ("PRODUCTO", some "Red Hammer 16oz")]]⟩).rows
      = some [[("CODIGO", some "A1"), ("PRODUCTO", some "Red Hammer 16oz")]] := by decide
  have hpr := processRecord_of_match
      (stripCols ⟨["CODIGO", "PRODUCTO"],
        [[("CODIGO", some "A1"), ("PRODUCTO", some "Red Hammer 16oz")]]⟩)
      45 15 ("Red Hammer", 10) _ (by decide) hcm
  rw [if_neg (by decide), if_pos (by decide)] at hpr
  simp only [processAll, hpr]
  have hm : priceCalc 10 45 = (29 : ℚ)/2 := by
    unfold priceCalc
    rw [round2_of_cents _ 1450 (by norm_num)]
    norm_num
  have hw : priceCalc 10 15 = (23 : ℚ)/2 := by
    unfold priceCalc
    rw [round2_of_cents _ 1150 (by norm_num)]
    norm_num
  have hcost : costRowOf [("CODIGO", some "A1"), ("PRODUCTO", some "Red Hammer 16oz")] 10
      = { codigo := some "A1", producto := some "Red Hammer 16oz", costo := 10 } := rfl
  have hprice : priceRowOf [("CODIGO", some "A1"), ("PRODUCTO", some "Red Hammer 16oz")]
        10 45 15
      = { codigo := some "A1", minorista := (29 : ℚ)/2, mayorista := (23 : ℚ)/2 } := by
    unfold priceRowOf
    rw [hm, hw]
    rfl
  simp only [List.map_cons, List.map_nil, hcost, hprice]
  rfl

/-- C9: when a captured description is one digit run followed by optional
whitespace, the normalized description is the empty string; the matcher with
the empty description returns every catalog row whose product value is
present (the empty pattern matches every string, and a missing value never
matches); and the record then contributes one updated-costs row per such
catalog row. -/
theorem claim_C9 :
    (∀ (d : String) (ds sp : List Char), d.data = ds ++ sp → ds ≠ [] →
        (∀ c ∈ ds, isDigitChar c = true) → (∀ c ∈ sp, isSpaceChar c = true) →
        clean_description d = "")
    ∧ (∀ rows : List CatRow, catalogMatch "" rows
          = some (rows.filter (fun r => ((r.lookup "PRODUCTO").join).isSome)))
    ∧ (∀ (cat : Catalog) (um uw c : ℚ)
          (out : List CostRow × List PriceRow × List (String × ℚ)),
        "PRODUCTO" ∈ cat.cols → "CODIGO" ∈ cat.cols →
        processRecord cat um uw ("", c) = some out →
        out.1.length
          = (cat.rows.filter (fun r => ((r.lookup "PRODUCTO").join).isSome)).length) := by
  refine ⟨?_, catalogMatch_empty_pattern, ?_⟩
  · intro d ds sp hd hne hds hsp
    have hspd : ∀ c, sp.head? = some c → isDigitChar c = false := by
      intro c hc
      cases sp with
      | nil => exact absurd hc (by simp)
      | cons a t =>
        simp only [List.head?_cons, Option.some.injEq] at hc
        subst hc
        exact isSpaceChar_not_digit _ (hsp _ (List.mem_cons_self _ _))
    have h1 : (ds ++ sp).takeWhile isDigitChar = ds :=
      takeWhile_append_all isDigitChar ds sp hds hspd
    unfold clean_description
    rw [hd]
    unfold stripLeadingCode
    simp only [h1]
    rw [if_neg (by simp [hne])]
    rw [List.drop_left ds sp]
    rw [List.dropWhile_eq_nil_iff.mpr (by intro x hx; exact hsp x hx)]
    rfl
  · intro cat um uw c out hP hC hpr
    have hcm := catalogMatch_empty_pattern cat.rows
    rw [processRecord_of_match cat um uw ("", c) _ hP hcm] at hpr
    by_cases hM : (cat.rows.filter
        (fun r => ((r.lookup "PRODUCTO").join).isSome)).isEmpty = true
    · rw [if_pos hM] at hpr
      simp only [Option.some.injEq] at hpr
      subst hpr
      rw [List.isEmpty_iff.mp hM]
      rfl
    · rw [if_neg hM, if_pos hC] at hpr
      simp only [Option.some.injEq] at hpr
      subst hpr
      exact List.length_map _ _

/-- Witness for C9: the description 12-space normalizes to the empty string;
the empty description matches exactly the rows with a present product; the
record with the empty description yields one cost row for the one present
row of a two-row catalog. -/
theorem claim_C9_witness :
    clean_description "12 " = ""
    ∧ catalogMatch "" [[("PRODUCTO", some "x")], [("PRODUCTO", none)]]
        = some [[("PRODUCTO", some "x")]]
    ∧ (processRecord
          ⟨["PRODUCTO", "CODIGO"],
            [[("PRODUCTO", some "x"), ("CODIGO", some "k")], [("PRODUCTO", none)]]⟩
          45 15 ("", 2)).map (fun out => out.1.length) = some 1 := by
  refine ⟨claim_C9.1 "12 " ['1', '2'] [' '] (by decide) (by decide) (by decide) (by decide),
    ?_, ?_⟩
  · have h := claim_C9.2.1 [[("PRODUCTO", some "x")], [("PRODUCTO", none)]]
    rw [h]
    decide
  · have hpr : processRecord
        ⟨["PRODUCTO", "CODIGO"],
          [[("PRODUCTO", some "x"), ("CODIGO", some "k")], [("PRODUCTO", none)]]⟩
        45 15 ("", 2)
        = some ([costRowOf [("PRODUCTO", some "x"), ("CODIGO", some "k")] 2],
                [priceRowOf [("PRODUCTO", some "x"), ("CODIGO", some "k")] 2 45 15],
                []) := rfl
    rw [hpr]
    have hlen := claim_C9.2.2
        ⟨["PRODUCTO", "CODIGO"],
          [[("PRODUCTO", some "x"), ("CODIGO", some "k")], [("PRODUCTO", none)]]⟩
        45 15 2 _ (by decide) (by decide) hpr
    rw [Option.map_some']
    rw [hlen]
    decide

/-- C10: every line matching the price-line pattern captures a numeric token
whose conversion (commas removed, then float) succeeds, so the parse-failure
branch is unreachable and the line parser is total: extracting records never
aborts, whatever the input lines. -/
theorem claim_C10 :
    (∀ (line : String) (d t : List Char), searchLine line.data = some (d, t) →
        ∃ q, convertCost t = some q)
    ∧ ∀ lines : List String, (extract_data_from_pdf lines).isSome = true := by
  constructor
  · intro line d t hs
    exact convertCost_of_shape t (searchLine_shape line.data d t hs)
  · exact extract_data_from_pdf_isSome

/-- Witness for C10 at a concrete matching line. -/
theorem claim_C10_witness :
    (∃ q, convertCost ("1.00".data) = some q)
    ∧ (extract_data_from_pdf ["5 x $ 1.00"]).isSome = true :=
  ⟨claim_C10.1 "5 x $ 1.00" ("x".data) ("1.00".data) (by decide),
    claim_C10.2 ["5 x $ 1.00"]⟩

/-- Witness for C2: a run whose single record is unmatched. -/
theorem claim_C2_witness :
    ∃ recs, extract_data_from_pdf ["1 xyz $ 2.00"] = some recs
      ∧ (∀ r ∈ recs, ∃ cs ps ns,
            processRecord
                (stripCols ⟨["PRODUCTO", "CODIGO"],
                  [[("PRODUCTO", some "abc"), ("CODIGO", some "k")]]⟩) 45 15 r
              = some (cs, ps, ns)
            ∧ ((1 ≤ cs.length ∧ ns = []) ∨ (cs = [] ∧ ns = [r])))
      ∧ [("xyz", (2 : ℚ))] = recs.filter
          (fun r => (matchedRows
            (stripCols ⟨["PRODUCTO", "CODIGO"],
              [[("PRODUCTO", some "abc"), ("CODIGO", some "k")]]⟩) r.1).isEmpty)
      ∧ recs.length = [("xyz", (2 : ℚ))].length
          + (recs.filter (fun r => !((matchedRows
              (stripCols ⟨["PRODUCTO", "CODIGO"],
                [[("PRODUCTO", some "abc"), ("CODIGO", some "k")]]⟩) r.1).isEmpty))).length := by
  have hlr := lineRecord_eq_of "1 xyz $ 2.00" ("xyz".data) ("2.00".data) 2
    (by decide) convertCost_twoz
  have hcln : clean_description (String.mk ("xyz".data)) = "xyz" := by decide
  rw [hcln] at hlr
  have hex := extract_data_one "1 xyz $ 2.00" "xyz" 2 hlr
  have hcm : catalogMatch "xyz"
      (stripCols ⟨["PRODUCTO", "CODIGO"],
        [[("PRODUCTO", some "abc"), ("CODIGO", some "k")]]⟩).rows = some [] := by decide
  have hpr := processRecord_of_match
      (stripCols ⟨["PRODUCTO", "CODIGO"],
        [[("PRODUCTO", some "abc"), ("CODIGO", some "k")]]⟩) 45 15 ("xyz", 2) [] (by decide) hcm
  rw [if_pos (by decide)] at hpr
  have hup : update_prices ["1 xyz $ 2.00"]
      ⟨["PRODUCTO", "CODIGO"], [[("PRODUCTO", some "abc"), ("CODIGO", some "k")]]⟩ 45 15
      = some ([], [], [("xyz", 2)]) := by
    unfold update_prices
    rw [hex]
    simp only [processAll, hpr]
    rfl
  exact claim_C2 ["1 xyz $ 2.00"]
    ⟨["PRODUCTO", "CODIGO"], [[("PRODUCTO", some "abc"), ("CODIGO", some "k")]]⟩
    45 15 [] [] [("xyz", 2)] hup
